import Mathlib

/-!
Shallow embedding of `src/parser/markdown.rs` (the mdx-rs markdown block
parser).  Strings are embedded as `List Char`; a nom parser
`fn(&str) -> IResult<&str, T>` becomes `List Char → Option (List Char × T)`
returning `some (rest, value)` on success and `none` on any nom error.
The nom combinators used by the source (`tag`, `take_while1`, `take_till1`,
`take_until`, `take_until1`, `not_line_ending`, `line_ending`, `digit1`,
`many0`, `many1`, `many_till`, `alt`, `all_consuming`, `eof`) are modelled
from their documented nom 7 semantics; `many0`/`many1`/`many_till` carry a
fuel argument and reproduce nom's no-progress error (nom errors when the
inner parser succeeds without consuming input).
-/

namespace Mdx

/-- A parser over the remaining input, nom style: `some (rest, value)` or error. -/
abbrev P (α : Type) := List Char → Option (List Char × α)

/-- Sequencing, mirroring Rust's `let (rest, x) = p(input)?;`. -/
def pbind {α β : Type} (p : P α) (f : α → P β) : P β := fun s =>
  match p s with
  | none => none
  | some (r, a) => f a r

/-- A parser that consumes nothing and returns `a`. -/
def ppure {α : Type} (a : α) : P α := fun s => some (s, a)

/-- nom `alt` for two branches; first success wins. -/
def palt {α : Type} (p q : P α) : P α := fun s =>
  match p s with
  | some x => some x
  | none => q s

/-- `List.isPrefixOf`, re-stated so that it recurses on the pattern first
(the core version is stuck on a symbolic tail). -/
def startsWithPat : List Char → List Char → Bool
  | [], _ => true
  | _ :: _, [] => false
  | a :: as, b :: bs => (a == b) && startsWithPat as bs

/-- nom `tag`: match a literal prefix, return it, advance past it. -/
def tag (t : List Char) : P (List Char) := fun s =>
  if startsWithPat t s then some (s.drop t.length, t) else none

/-- nom `take_while1`: longest prefix satisfying `f`, which must be non-empty. -/
def takeWhile1 (f : Char → Bool) : P (List Char) := fun s =>
  let t := s.takeWhile f
  if t.isEmpty then none else some (s.dropWhile f, t)

/-- nom `take_till1`: longest non-empty prefix NOT satisfying `f`. -/
def takeTill1 (f : Char → Bool) : P (List Char) :=
  takeWhile1 (fun c => ! f c)

/-- nom `digit1`: one or more ASCII digits. -/
def digit1 : P (List Char) := takeWhile1 Char.isDigit

/-- nom complete `take_until`: consume (possibly zero) chars up to the first
occurrence of `pat`; error when `pat` does not occur. -/
def takeUntil (pat : List Char) : P (List Char)
  | [] => if startsWithPat pat ([] : List Char) then some ([], []) else none
  | c :: s =>
    if startsWithPat pat (c :: s) then some (c :: s, [])
    else
      match takeUntil pat s with
      | some (r, pre) => some (r, c :: pre)
      | none => none

/-- nom complete `take_until1`: like `take_until` but the consumed part must
be non-empty. -/
def takeUntil1 (pat : List Char) : P (List Char) := fun s =>
  match takeUntil pat s with
  | some (_, []) => none
  | some (r, pre) => some (r, pre)
  | none => none

/-- nom complete `not_line_ending`: chars up to `\r\n` or `\n`; a `\r` not
followed by `\n` is an error; consumes the whole input when no terminator
occurs. -/
def notLineEnding : P (List Char)
  | [] => some ([], [])
  | c :: s =>
    if c = '\n' then some (c :: s, [])
    else if c = '\r' then
      match s with
      | [] => none
      | d :: _ => if d = '\n' then some (c :: s, []) else none
    else
      match notLineEnding s with
      | some (r, pre) => some (r, c :: pre)
      | none => none

/-- nom `line_ending`: `\n` or `\r\n`. -/
def lineEnding : P (List Char)
  | [] => none
  | c :: s =>
    if c = '\n' then some (s, ['\n'])
    else if c = '\r' then
      match s with
      | [] => none
      | d :: s2 => if d = '\n' then some (s2, ['\r', '\n']) else none
    else none

/-- nom `eof`: succeeds exactly on empty input. -/
def eofP : P Unit
  | [] => some ([], ())
  | _ :: _ => none

/-- nom `all_consuming`: succeed only when `p` consumes the entire input. -/
def allConsuming {α : Type} (p : P α) : P α := fun s =>
  match p s with
  | some ([], a) => some ([], a)
  | _ => none

/-- Fueled body of nom `many0`.  nom errors when the inner parser succeeds
without consuming input; since every parser here returns a suffix of its
input, "no progress" is equivalent to "same length", which the guard checks. -/
def many0Aux {α : Type} (p : P α) : Nat → P (List α)
  | 0, _ => none
  | fuel + 1, s =>
    match p s with
    | none => some (s, [])
    | some (r, a) =>
      if r.length < s.length then
        match many0Aux p fuel r with
        | some (rr, xs) => some (rr, a :: xs)
        | none => none
      else none

/-- nom `many0`; the fuel `length + 1` is enough because every iteration
strictly consumes. -/
def many0 {α : Type} (p : P α) : P (List α) := fun s => many0Aux p (s.length + 1) s

/-- nom `many1`: like `many0` but at least one match. -/
def many1 {α : Type} (p : P α) : P (List α) := fun s =>
  match many0 p s with
  | some (_, []) => none
  | some (r, xs) => some (r, xs)
  | none => none

/-- Rust `str::trim` (ASCII whitespace suffices for this grammar). -/
def trim (s : List Char) : List Char :=
  ((s.dropWhile Char.isWhitespace).reverse.dropWhile Char.isWhitespace).reverse

/-- `parse_line`: a line's content, discarding the required terminator. -/
def parse_line : P (List Char) :=
  pbind notLineEnding (fun line => pbind lineEnding (fun _ => ppure line))

/-! ## Data model (the Rust structs, `&str` fields as `List Char`) -/

structure Heading where
  level : Nat
  text : List Char
  deriving DecidableEq, Repr

structure CodeBlock where
  lang : Option (List Char)
  contents : List Char
  deriving DecidableEq, Repr

structure Link where
  text : List Char
  url : List Char
  deriving DecidableEq, Repr

structure Image where
  alt : List Char
  source : List Char
  deriving DecidableEq, Repr

structure UnorderedList where
  items : List (List Char)
  deriving DecidableEq, Repr

structure OrderedList where
  items : List (List Char)
  deriving DecidableEq, Repr

structure Task where
  text : List Char
  completed : Bool
  deriving DecidableEq, Repr

structure TaskList where
  tasks : List Task
  deriving DecidableEq, Repr

structure FootnoteRef where
  name : List Char
  deriving DecidableEq, Repr

structure Footnote where
  name : List Char
  text : List (List Char)
  deriving DecidableEq, Repr

/-- Rust tuple struct `Text(&str)`. -/
structure Text where
  val : List Char
  deriving DecidableEq, Repr

inductive TextBlockItem where
  | text : Text → TextBlockItem
  | footnoteRef : FootnoteRef → TextBlockItem
  | link : Link → TextBlockItem
  deriving DecidableEq, Repr

structure TextBlock where
  contents : List TextBlockItem
  deriving DecidableEq, Repr

inductive Newline where
  | mk : Newline
  deriving DecidableEq, Repr

/-! ## Leaf parsers, each mirroring the Rust `impl Parse` body -/

/-- `Heading::parse`'s inner `parse_level`: run of `#`, length cast `as u8`
(hence `% 256`). -/
def parse_level : P Nat :=
  pbind (takeWhile1 (fun c => c == '#')) (fun l => ppure (l.length % 256))

def Heading.parse : P Heading :=
  pbind parse_level (fun level =>
    pbind parse_line (fun text =>
      ppure ⟨level, trim text⟩))

/-- `CodeBlock::parse`'s `parse_start`: the opening fence and optional
language tag. -/
def CodeBlock.parseStart : P (Option (List Char)) :=
  pbind (tag ("```".toList)) (fun _ =>
    pbind parse_line (fun langLine =>
      let lang := trim langLine
      ppure (if lang.length = 0 then none else some lang)))

/-- The `not_line_ending(content)?` step of `parse_content`: runs on the
captured span, consumes nothing from the stream, and propagates its error. -/
def CodeBlock.contentFirstLine (content : List Char) : P (List Char) := fun s =>
  match notLineEnding content with
  | none => none
  | some (_, c) => some (s, c)

/-- `CodeBlock::parse`'s `parse_content`: span up to the closing fence, then
`not_line_ending` over that span, then the closing fence. -/
def CodeBlock.parseContent : P (List Char) :=
  pbind (takeUntil ("```".toList)) (fun content =>
    pbind (CodeBlock.contentFirstLine content) (fun c =>
      pbind (tag ("```".toList)) (fun _ => ppure c)))

def CodeBlock.parse : P CodeBlock :=
  pbind CodeBlock.parseStart (fun lang =>
    pbind CodeBlock.parseContent (fun contents =>
      ppure ⟨lang, contents⟩))

def Link.parse : P Link :=
  pbind (tag ("[".toList)) (fun _ =>
    pbind (takeUntil ("]".toList)) (fun text =>
      pbind (tag ("]".toList)) (fun _ =>
        pbind (tag ("(".toList)) (fun _ =>
          pbind (takeUntil (")".toList)) (fun url =>
            pbind (tag (")".toList)) (fun _ =>
              ppure ⟨text, url⟩))))))

def Image.parse : P Image :=
  pbind (tag ("![".toList)) (fun _ =>
    pbind (takeUntil ("]".toList)) (fun alt =>
      pbind (tag ("]".toList)) (fun _ =>
        pbind (tag ("(".toList)) (fun _ =>
          pbind (takeUntil (")".toList)) (fun source =>
            pbind (tag (")".toList)) (fun _ =>
              ppure ⟨alt, source⟩))))))

/-- `UnorderedList::parse`'s `parse_list_item`. -/
def UnorderedList.parseListItem : P (List Char) :=
  pbind (tag ("- ".toList)) (fun _ =>
    pbind parse_line (fun item => ppure (trim item)))

def UnorderedList.parse : P UnorderedList :=
  pbind (many1 UnorderedList.parseListItem) (fun items => ppure ⟨items⟩)

/-- `OrderedList::parse`'s `parse_list_item`. -/
def OrderedList.parseListItem : P (List Char) :=
  pbind digit1 (fun _ =>
    pbind (tag (". ".toList)) (fun _ =>
      pbind parse_line (fun item => ppure (trim item))))

def OrderedList.parse : P OrderedList :=
  pbind (many1 OrderedList.parseListItem) (fun items => ppure ⟨items⟩)

def Task.parseCompleted : P Bool :=
  pbind (tag ("- [x] ".toList)) (fun _ => ppure true)

def Task.parseIncomplete : P Bool :=
  pbind (tag ("- [ ] ".toList)) (fun _ => ppure false)

def Task.parse : P Task :=
  pbind (palt Task.parseCompleted Task.parseIncomplete) (fun completed =>
    pbind parse_line (fun text => ppure ⟨text, completed⟩))

def TaskList.parse : P TaskList :=
  pbind (many1 Task.parse) (fun tasks => ppure ⟨tasks⟩)

def FootnoteRef.parse : P FootnoteRef :=
  pbind (tag ("[^".toList)) (fun _ =>
    pbind (takeUntil ("]".toList)) (fun name =>
      pbind (tag ("]".toList)) (fun _ => ppure ⟨name⟩)))

/-- `Footnote::parse`'s `parse_extra_lines`: a continuation line starting
with exactly two spaces, stored with the prefix stripped. -/
def Footnote.parseExtraLines : P (List Char) :=
  pbind (tag ("  ".toList)) (fun _ => pbind parse_line ppure)

def Footnote.parse : P Footnote :=
  pbind (tag ("[^".toList)) (fun _ =>
    pbind (takeUntil ("]:".toList)) (fun name =>
      pbind (tag ("]:".toList)) (fun _ =>
        pbind parse_line (fun text =>
          pbind (many0 Footnote.parseExtraLines) (fun lines =>
            ppure ⟨name, trim text :: lines⟩)))))

def Text.parse : P Text :=
  pbind (takeTill1 (fun c => c == '`' || c == '[')) (fun t => ppure ⟨t⟩)

def Text.parseIntoTextBlock : P TextBlockItem :=
  pbind Text.parse (fun t => ppure (TextBlockItem.text t))

def FootnoteRef.parseIntoTextBlock : P TextBlockItem :=
  pbind FootnoteRef.parse (fun t => ppure (TextBlockItem.footnoteRef t))

def Link.parseIntoTextBlock : P TextBlockItem :=
  pbind Link.parse (fun t => ppure (TextBlockItem.link t))

/-- The inline alternation inside `TextBlock::parse`: Text, FootnoteRef, Link. -/
def inlineItem : P TextBlockItem :=
  palt Text.parseIntoTextBlock (palt FootnoteRef.parseIntoTextBlock Link.parseIntoTextBlock)

/-- The `all_consuming(many1(alt(...)))(contents)?` step: full inline
decomposition of the captured span; consumes nothing from the stream and
fails hard when a remainder is left. -/
def TextBlock.decompose (contents : List Char) : P (List TextBlockItem) := fun s =>
  match allConsuming (many1 inlineItem) contents with
  | none => none
  | some (_, items) => some (s, items)

def TextBlock.parse : P TextBlock :=
  pbind (takeUntil1 ("\n\n".toList)) (fun contents =>
    pbind (many1 (tag ("\n".toList))) (fun _ =>
      pbind (TextBlock.decompose contents) (fun items =>
        ppure ⟨items⟩)))

def Newline.parse : P Newline :=
  pbind lineEnding (fun _ => ppure Newline.mk)

/-! ## Block aggregator -/

inductive Block where
  | heading : Heading → Block
  | codeBlock : CodeBlock → Block
  | link : Link → Block
  | image : Image → Block
  | orderedList : OrderedList → Block
  | unorderedList : UnorderedList → Block
  | taskList : TaskList → Block
  | footnote : Footnote → Block
  | textBlock : TextBlock → Block
  | newline : Newline → Block
  deriving DecidableEq, Repr

/-- `parse_into_block`: parse then tag into the `Block` enum. -/
def intoBlock {α : Type} (p : P α) (f : α → Block) : P Block :=
  pbind p (fun x => ppure (f x))

/-- The `alt((...))` inside `Block::parse`, in source order (the source lists
Link and Image twice; kept verbatim). -/
def blockStep : P Block :=
  palt (intoBlock Heading.parse Block.heading)
    (palt (intoBlock CodeBlock.parse Block.codeBlock)
      (palt (intoBlock Link.parse Block.link)
        (palt (intoBlock Image.parse Block.image)
          (palt (intoBlock Link.parse Block.link)
            (palt (intoBlock Image.parse Block.image)
              (palt (intoBlock OrderedList.parse Block.orderedList)
                (palt (intoBlock UnorderedList.parse Block.unorderedList)
                  (palt (intoBlock TaskList.parse Block.taskList)
                    (palt (intoBlock Footnote.parse Block.footnote)
                      (palt (intoBlock TextBlock.parse Block.textBlock)
                        (intoBlock Newline.parse Block.newline)))))))))))

/-- Fueled body of `many_till(alt((...)), eof)`: at each step first try
`eof`, then one block; nom's no-progress check appears as the length guard. -/
def Block.parseAux : Nat → P (List Block)
  | 0, _ => none
  | fuel + 1, s =>
    match eofP s with
    | some _ => some (s, [])
    | none =>
      match blockStep s with
      | none => none
      | some (r, b) =>
        if r.length < s.length then
          match Block.parseAux fuel r with
          | some (rr, bs) => some (rr, b :: bs)
          | none => none
        else none

/-- `Block::parse`: the whole-document block aggregator. -/
def Block.parse : P (List Block) := fun s => Block.parseAux (s.length + 1) s

/-- Instrumented variant of `Block.parseAux` that also records, for each
emitted block, the span the recognizer consumed (input before the step minus
input after it).  Used only to state the total-coverage property. -/
def Block.parseTraceAux : Nat → P (List (Block × List Char))
  | 0, _ => none
  | fuel + 1, s =>
    match eofP s with
    | some _ => some (s, [])
    | none =>
      match blockStep s with
      | none => none
      | some (r, b) =>
        if r.length < s.length then
          match Block.parseTraceAux fuel r with
          | some (rr, tr) => some (rr, (b, s.take (s.length - r.length)) :: tr)
          | none => none
        else none

/-- `Block.parse` with consumed spans recorded. -/
def Block.parseTrace : P (List (Block × List Char)) := fun s =>
  Block.parseTraceAux (s.length + 1) s

/-! ## Consumption predicates -/

/-- `p` only ever returns a suffix of its input (the consumed prefix exists). -/
def Consumes {α : Type} (p : P α) : Prop :=
  ∀ s r a, p s = some (r, a) → ∃ c, s = c ++ r

/-- `p` returns a strictly shorter suffix: it never succeeds on zero input. -/
def Strict {α : Type} (p : P α) : Prop :=
  ∀ s r a, p s = some (r, a) → (∃ c, s = c ++ r) ∧ r.length < s.length

/-! ## Consumption lemmas for the combinators -/

theorem consumes_of_strict {α : Type} {p : P α} (h : Strict p) : Consumes p :=
  fun s r a hp => (h s r a hp).1

theorem ppure_consumes {α : Type} (a : α) : Consumes (ppure a) := by
  intro s r b h
  simp only [ppure, Option.some.injEq, Prod.mk.injEq] at h
  exact ⟨[], by simp [h.1]⟩

theorem pbind_consumes {α β : Type} {p : P α} {f : α → P β}
    (hp : Consumes p) (hf : ∀ a, Consumes (f a)) : Consumes (pbind p f) := by
  intro s r b h
  unfold pbind at h
  cases hps : p s with
  | none => rw [hps] at h; exact absurd h (by simp)
  | some x =>
    obtain ⟨r1, a⟩ := x
    rw [hps] at h
    obtain ⟨c1, hc1⟩ := hp s r1 a hps
    obtain ⟨c2, hc2⟩ := hf a r1 r b h
    exact ⟨c1 ++ c2, by rw [hc1, hc2, List.append_assoc]⟩

theorem pbind_strict_left {α β : Type} {p : P α} {f : α → P β}
    (hp : Strict p) (hf : ∀ a, Consumes (f a)) : Strict (pbind p f) := by
  intro s r b h
  unfold pbind at h
  cases hps : p s with
  | none => rw [hps] at h; exact absurd h (by simp)
  | some x =>
    obtain ⟨r1, a⟩ := x
    rw [hps] at h
    obtain ⟨⟨c1, hc1⟩, hlt⟩ := hp s r1 a hps
    obtain ⟨c2, hc2⟩ := hf a r1 r b h
    refine ⟨⟨c1 ++ c2, by rw [hc1, hc2, List.append_assoc]⟩, ?_⟩
    have : r.length ≤ r1.length := by rw [hc2]; simp
    omega

theorem pbind_strict_right {α β : Type} {p : P α} {f : α → P β}
    (hp : Consumes p) (hf : ∀ a, Strict (f a)) : Strict (pbind p f) := by
  intro s r b h
  unfold pbind at h
  cases hps : p s with
  | none => rw [hps] at h; exact absurd h (by simp)
  | some x =>
    obtain ⟨r1, a⟩ := x
    rw [hps] at h
    obtain ⟨c1, hc1⟩ := hp s r1 a hps
    obtain ⟨⟨c2, hc2⟩, hlt⟩ := hf a r1 r b h
    refine ⟨⟨c1 ++ c2, by rw [hc1, hc2, List.append_assoc]⟩, ?_⟩
    have : r1.length ≤ s.length := by rw [hc1]; simp
    omega

theorem palt_consumes {α : Type} {p q : P α} (hp : Consumes p) (hq : Consumes q) :
    Consumes (palt p q) := by
  intro s r a h
  unfold palt at h
  cases hps : p s with
  | none => rw [hps] at h; exact hq s r a h
  | some x =>
    rw [hps] at h
    have hx := Option.some.inj h
    exact hp s r a (by rw [hps, hx])

theorem palt_strict {α : Type} {p q : P α} (hp : Strict p) (hq : Strict q) :
    Strict (palt p q) := by
  intro s r a h
  unfold palt at h
  cases hps : p s with
  | none => rw [hps] at h; exact hq s r a h
  | some x =>
    rw [hps] at h
    have hx := Option.some.inj h
    exact hp s r a (by rw [hps, hx])

theorem startsWithPat_exists : ∀ (t s : List Char), startsWithPat t s = true → ∃ u, s = t ++ u
  | [], s, _ => ⟨s, rfl⟩
  | a :: t, [], h => by simp [startsWithPat] at h
  | a :: t, b :: s, h => by
    simp only [startsWithPat, Bool.and_eq_true, beq_iff_eq] at h
    obtain ⟨u, hu⟩ := startsWithPat_exists t s h.2
    exact ⟨u, by rw [h.1, hu, List.cons_append]⟩

theorem tag_eq {t s r a : List Char} (h : tag t s = some (r, a)) :
    s = t ++ r ∧ a = t := by
  unfold tag at h
  split at h
  · rename_i hpre
    obtain ⟨u, hu⟩ := startsWithPat_exists t s hpre
    have h2 := Option.some.inj h
    have hr : s.drop t.length = r := congrArg Prod.fst h2
    have ha : t = a := congrArg Prod.snd h2
    subst hu
    rw [List.drop_left] at hr
    exact ⟨by rw [hr], ha.symm⟩
  · exact absurd h (by simp)

theorem tag_consumes (t : List Char) : Consumes (tag t) :=
  fun _ r a h => ⟨t, (tag_eq h).1⟩

theorem tag_strict {t : List Char} (ht : t ≠ []) : Strict (tag t) := by
  intro s r a h
  obtain ⟨hs, -⟩ := tag_eq h
  refine ⟨⟨t, hs⟩, ?_⟩
  cases t with
  | nil => exact absurd rfl ht
  | cons c cs => rw [hs]; simp; omega

theorem takeWhile1_eq {f : Char → Bool} {s r a : List Char}
    (h : takeWhile1 f s = some (r, a)) : s = a ++ r ∧ a ≠ [] := by
  unfold takeWhile1 at h
  simp only at h
  split at h
  · exact absurd h (by simp)
  · rename_i hne
    have h2 := Option.some.inj h
    have hr : s.dropWhile f = r := congrArg Prod.fst h2
    have ha : s.takeWhile f = a := congrArg Prod.snd h2
    constructor
    · rw [← hr, ← ha, List.takeWhile_append_dropWhile]
    · rw [← ha]
      intro hnil
      rw [hnil] at hne
      exact hne rfl

theorem takeWhile1_strict (f : Char → Bool) : Strict (takeWhile1 f) := by
  intro s r a h
  obtain ⟨hs, hne⟩ := takeWhile1_eq h
  refine ⟨⟨a, hs⟩, ?_⟩
  cases a with
  | nil => exact absurd rfl hne
  | cons c cs => rw [hs]; simp; omega

theorem takeTill1_strict (f : Char → Bool) : Strict (takeTill1 f) :=
  takeWhile1_strict _

theorem takeUntil_eq (pat : List Char) :
    ∀ s r pre, takeUntil pat s = some (r, pre) → s = pre ++ r := by
  intro s
  induction s with
  | nil =>
    intro r pre h
    unfold takeUntil at h
    split at h
    · have h2 := Option.some.inj h
      have hr : ([] : List Char) = r := congrArg Prod.fst h2
      have hp : ([] : List Char) = pre := congrArg Prod.snd h2
      rw [← hr, ← hp]
      rfl
    · exact absurd h (by simp)
  | cons c s ih =>
    intro r pre h
    unfold takeUntil at h
    split at h
    · have h2 := Option.some.inj h
      have hr : c :: s = r := congrArg Prod.fst h2
      have hp : ([] : List Char) = pre := congrArg Prod.snd h2
      rw [← hr, ← hp]
      rfl
    · cases ht : takeUntil pat s with
      | none => rw [ht] at h; exact absurd h (by simp)
      | some x =>
        obtain ⟨r1, pre1⟩ := x
        rw [ht] at h
        have h2 := Option.some.inj h
        have hr : r1 = r := congrArg Prod.fst h2
        have hp : c :: pre1 = pre := congrArg Prod.snd h2
        have := ih r1 pre1 ht
        rw [← hr, ← hp, this]
        rfl

theorem takeUntil_consumes (pat : List Char) : Consumes (takeUntil pat) :=
  fun s r pre h => ⟨pre, takeUntil_eq pat s r pre h⟩

theorem takeUntil1_eq {pat s r pre : List Char}
    (h : takeUntil1 pat s = some (r, pre)) : s = pre ++ r ∧ pre ≠ [] := by
  unfold takeUntil1 at h
  cases ht : takeUntil pat s with
  | none => rw [ht] at h; exact absurd h (by simp)
  | some x =>
    obtain ⟨r1, pre1⟩ := x
    rw [ht] at h
    cases pre1 with
    | nil => exact absurd h (by simp)
    | cons c cs =>
      have h2 := Option.some.inj h
      have hr : r1 = r := congrArg Prod.fst h2
      have hp : c :: cs = pre := congrArg Prod.snd h2
      refine ⟨?_, by rw [← hp]; simp⟩
      rw [← hr, ← hp]
      exact takeUntil_eq pat s r1 (c :: cs) ht

theorem takeUntil1_strict (pat : List Char) : Strict (takeUntil1 pat) := by
  intro s r pre h
  obtain ⟨hs, hne⟩ := takeUntil1_eq h
  refine ⟨⟨pre, hs⟩, ?_⟩
  cases pre with
  | nil => exact absurd rfl hne
  | cons c cs => rw [hs]; simp; omega

theorem notLineEnding_eq :
    ∀ s r pre, notLineEnding s = some (r, pre) → s = pre ++ r := by
  intro s
  induction s with
  | nil =>
    intro r pre h
    simp only [notLineEnding, Option.some.injEq, Prod.mk.injEq] at h
    obtain ⟨h1, h2⟩ := h
    subst h1
    subst h2
    rfl
  | cons c s ih =>
    intro r pre h
    simp only [notLineEnding] at h
    by_cases hc : c = '\n'
    · rw [if_pos hc] at h
      have h2 := Option.some.inj h
      have hr : c :: s = r := congrArg Prod.fst h2
      have hp : ([] : List Char) = pre := congrArg Prod.snd h2
      rw [← hr, ← hp]
      rfl
    · rw [if_neg hc] at h
      by_cases hc2 : c = '\r'
      · rw [if_pos hc2] at h
        cases s with
        | nil => exact absurd h (by simp)
        | cons d s2 =>
          by_cases hd : d = '\n'
          · simp only [if_pos hd] at h
            have h2 := Option.some.inj h
            have hr : c :: d :: s2 = r := congrArg Prod.fst h2
            have hp : ([] : List Char) = pre := congrArg Prod.snd h2
            rw [← hr, ← hp]
            rfl
          · simp only [if_neg hd] at h
            exact absurd h (by simp)
      · rw [if_neg hc2] at h
        cases ht : notLineEnding s with
        | none => rw [ht] at h; exact absurd h (by simp)
        | some x =>
          obtain ⟨r1, pre1⟩ := x
          rw [ht] at h
          have h2 := Option.some.inj h
          have hr : r1 = r := congrArg Prod.fst h2
          have hp : c :: pre1 = pre := congrArg Prod.snd h2
          have := ih r1 pre1 ht
          rw [← hr, ← hp, this]
          rfl

theorem notLineEnding_consumes : Consumes notLineEnding :=
  fun s r pre h => ⟨pre, notLineEnding_eq s r pre h⟩

theorem lineEnding_strict : Strict lineEnding := by
  intro s r a h
  cases s with
  | nil => exact absurd h (by simp [lineEnding])
  | cons c s =>
    simp only [lineEnding] at h
    by_cases hc : c = '\n'
    · rw [if_pos hc] at h
      have h2 := Option.some.inj h
      have hr : s = r := congrArg Prod.fst h2
      subst hc
      subst hr
      exact ⟨⟨['\n'], rfl⟩, by simp⟩
    · rw [if_neg hc] at h
      by_cases hc2 : c = '\r'
      · rw [if_pos hc2] at h
        cases s with
        | nil => exact absurd h (by simp)
        | cons d s2 =>
          by_cases hd : d = '\n'
          · simp only [if_pos hd] at h
            have h2 := Option.some.inj h
            have hr : s2 = r := congrArg Prod.fst h2
            subst hc2
            subst hd
            subst hr
            exact ⟨⟨['\r', '\n'], rfl⟩, by simp; omega⟩
          · simp only [if_neg hd] at h
            exact absurd h (by simp)
      · rw [if_neg hc2] at h
        exact absurd h (by simp)

theorem parse_line_strict : Strict parse_line :=
  pbind_strict_right notLineEnding_consumes
    (fun _ => pbind_strict_left lineEnding_strict (fun _ => ppure_consumes _))

theorem eofP_eq {s r : List Char} {u : Unit} (h : eofP s = some (r, u)) :
    s = [] ∧ r = [] := by
  cases s with
  | nil =>
    simp only [eofP, Option.some.injEq, Prod.mk.injEq] at h
    exact ⟨rfl, h.1.symm⟩
  | cons c s => exact absurd h (by simp [eofP])

theorem many0Aux_consumes {α : Type} {p : P α} (hp : Consumes p) :
    ∀ fuel s r xs, many0Aux p fuel s = some (r, xs) → ∃ c, s = c ++ r := by
  intro fuel
  induction fuel with
  | zero => intro s r xs h; simp [many0Aux] at h
  | succ n ih =>
    intro s r xs h
    simp only [many0Aux] at h
    cases hps : p s with
    | none =>
      simp only [hps] at h
      have h2 := Option.some.inj h
      have hr : s = r := congrArg Prod.fst h2
      exact ⟨[], by simp [hr]⟩
    | some x =>
      obtain ⟨r1, a⟩ := x
      simp only [hps] at h
      split at h
      · cases hm : many0Aux p n r1 with
        | none =>
          simp only [hm] at h
          exact absurd h (by simp)
        | some y =>
          obtain ⟨rr, ys⟩ := y
          simp only [hm] at h
          have h2 := Option.some.inj h
          have hr : rr = r := congrArg Prod.fst h2
          obtain ⟨c1, hc1⟩ := hp s r1 a hps
          obtain ⟨c2, hc2⟩ := ih r1 rr ys hm
          exact ⟨c1 ++ c2, by rw [hc1, hc2, ← hr, List.append_assoc]⟩
      · exact absurd h (by simp)

theorem many0_consumes {α : Type} {p : P α} (hp : Consumes p) : Consumes (many0 p) :=
  fun s r xs h => many0Aux_consumes hp (s.length + 1) s r xs h

theorem many0Aux_isSome {α : Type} {p : P α} (hp : Strict p) :
    ∀ fuel s, s.length < fuel → ∃ out, many0Aux p fuel s = some out := by
  intro fuel
  induction fuel with
  | zero => intro s h; omega
  | succ n ih =>
    intro s hlt
    cases hps : p s with
    | none => exact ⟨(s, []), by simp [many0Aux, hps]⟩
    | some x =>
      obtain ⟨r1, a⟩ := x
      have hstrict := (hp s r1 a hps).2
      obtain ⟨⟨rr, ys⟩, hm⟩ := ih r1 (by omega)
      exact ⟨(rr, a :: ys), by simp [many0Aux, hps, hstrict, hm]⟩

theorem many0_cons {α : Type} {p : P α} {s r : List Char} {a : α} {ys : List α}
    (h : many0 p s = some (r, a :: ys)) :
    ∃ r1, p s = some (r1, a) ∧ r1.length < s.length ∧
      many0Aux p s.length r1 = some (r, ys) := by
  unfold many0 at h
  simp only [many0Aux] at h
  cases hps : p s with
  | none =>
    simp only [hps] at h
    have h2 := Option.some.inj h
    have : ([] : List α) = a :: ys := congrArg Prod.snd h2
    simp at this
  | some x =>
    obtain ⟨r1, a1⟩ := x
    simp only [hps] at h
    split at h
    · rename_i hlt
      cases hm : many0Aux p s.length r1 with
      | none =>
        simp only [hm] at h
        exact absurd h (by simp)
      | some y =>
        obtain ⟨rr, ys1⟩ := y
        simp only [hm] at h
        have h2 := Option.some.inj h
        have hr : rr = r := congrArg Prod.fst h2
        have hxs : a1 :: ys1 = a :: ys := congrArg Prod.snd h2
        have ha : a1 = a := (List.cons.inj hxs).1
        have hys : ys1 = ys := (List.cons.inj hxs).2
        subst hr
        subst ha
        subst hys
        exact ⟨r1, rfl, hlt, hm⟩
    · exact absurd h (by simp)

theorem many1_strict {α : Type} {p : P α} (hp : Consumes p) : Strict (many1 p) := by
  intro s r xs h
  unfold many1 at h
  cases hm : many0 p s with
  | none =>
    simp only [hm] at h
    exact absurd h (by simp)
  | some y =>
    obtain ⟨r1, xs1⟩ := y
    simp only [hm] at h
    cases xs1 with
    | nil => exact absurd h (by simp)
    | cons a ys =>
      have h2 := Option.some.inj h
      have hr : r1 = r := congrArg Prod.fst h2
      subst hr
      obtain ⟨rm, hpm, hlt, hrest⟩ := many0_cons hm
      obtain ⟨c1, hc1⟩ := hp s rm a hpm
      obtain ⟨c2, hc2⟩ := many0Aux_consumes hp s.length rm r1 ys hrest
      refine ⟨⟨c1 ++ c2, by rw [hc1, hc2, List.append_assoc]⟩, ?_⟩
      have : r1.length ≤ rm.length := by rw [hc2]; simp
      omega

theorem many1_progress {α : Type} {p : P α} (hp : Strict p) {s r1 : List Char} {a : α}
    (h : p s = some (r1, a)) : ∃ rr xs, many1 p s = some (rr, a :: xs) := by
  have hlt := (hp s r1 a h).2
  obtain ⟨⟨rr, ys⟩, hm⟩ := many0Aux_isSome hp s.length r1 (by omega)
  have hmany0 : many0 p s = some (rr, a :: ys) := by
    unfold many0
    simp only [many0Aux]
    simp only [h]
    rw [if_pos hlt, hm]
  refine ⟨rr, ys, ?_⟩
  unfold many1
  rw [hmany0]

/-! ## Strictness of every block recognizer -/

theorem parse_level_strict : Strict parse_level :=
  pbind_strict_left (takeWhile1_strict _) (fun _ => ppure_consumes _)

theorem heading_strict : Strict Heading.parse :=
  pbind_strict_left parse_level_strict
    (fun _ => pbind_consumes (consumes_of_strict parse_line_strict)
      (fun _ => ppure_consumes _))

theorem contentFirstLine_consumes (content : List Char) :
    Consumes (CodeBlock.contentFirstLine content) := by
  intro s r a h
  unfold CodeBlock.contentFirstLine at h
  cases hn : notLineEnding content with
  | none =>
    simp only [hn] at h
    exact absurd h (by simp)
  | some x =>
    obtain ⟨r1, c1⟩ := x
    simp only [hn] at h
    have h2 := Option.some.inj h
    have hr : s = r := congrArg Prod.fst h2
    exact ⟨[], by simp [hr]⟩

theorem parseStart_strict : Strict CodeBlock.parseStart :=
  pbind_strict_left (tag_strict (by decide))
    (fun _ => pbind_consumes (consumes_of_strict parse_line_strict)
      (fun _ => ppure_consumes _))

theorem parseContent_consumes : Consumes CodeBlock.parseContent :=
  pbind_consumes (takeUntil_consumes _)
    (fun content => pbind_consumes (contentFirstLine_consumes content)
      (fun _ => pbind_consumes (tag_consumes _) (fun _ => ppure_consumes _)))

theorem codeBlock_strict : Strict CodeBlock.parse :=
  pbind_strict_left parseStart_strict
    (fun _ => pbind_consumes parseContent_consumes (fun _ => ppure_consumes _))

theorem link_strict : Strict Link.parse :=
  pbind_strict_left (tag_strict (by decide))
    (fun _ => pbind_consumes (takeUntil_consumes _)
      (fun _ => pbind_consumes (tag_consumes _)
        (fun _ => pbind_consumes (tag_consumes _)
          (fun _ => pbind_consumes (takeUntil_consumes _)
            (fun _ => pbind_consumes (tag_consumes _)
              (fun _ => ppure_consumes _))))))

theorem image_strict : Strict Image.parse :=
  pbind_strict_left (tag_strict (by decide))
    (fun _ => pbind_consumes (takeUntil_consumes _)
      (fun _ => pbind_consumes (tag_consumes _)
        (fun _ => pbind_consumes (tag_consumes _)
          (fun _ => pbind_consumes (takeUntil_consumes _)
            (fun _ => pbind_consumes (tag_consumes _)
              (fun _ => ppure_consumes _))))))

theorem ulItem_consumes : Consumes UnorderedList.parseListItem :=
  pbind_consumes (tag_consumes _)
    (fun _ => pbind_consumes (consumes_of_strict parse_line_strict)
      (fun _ => ppure_consumes _))

theorem unorderedList_strict : Strict UnorderedList.parse :=
  pbind_strict_left (many1_strict ulItem_consumes) (fun _ => ppure_consumes _)

theorem olItem_consumes : Consumes OrderedList.parseListItem :=
  pbind_consumes (consumes_of_strict (takeWhile1_strict _))
    (fun _ => pbind_consumes (tag_consumes _)
      (fun _ => pbind_consumes (consumes_of_strict parse_line_strict)
        (fun _ => ppure_consumes _)))

theorem orderedList_strict : Strict OrderedList.parse :=
  pbind_strict_left (many1_strict olItem_consumes) (fun _ => ppure_consumes _)

theorem task_consumes : Consumes Task.parse :=
  pbind_consumes
    (palt_consumes
      (pbind_consumes (tag_consumes _) (fun _ => ppure_consumes _))
      (pbind_consumes (tag_consumes _) (fun _ => ppure_consumes _)))
    (fun _ => pbind_consumes (consumes_of_strict parse_line_strict)
      (fun _ => ppure_consumes _))

theorem taskList_strict : Strict TaskList.parse :=
  pbind_strict_left (many1_strict task_consumes) (fun _ => ppure_consumes _)

theorem footnoteExtra_consumes : Consumes Footnote.parseExtraLines :=
  pbind_consumes (tag_consumes _)
    (fun _ => pbind_consumes (consumes_of_strict parse_line_strict)
      (fun _ => ppure_consumes _))

theorem footnote_strict : Strict Footnote.parse :=
  pbind_strict_left (tag_strict (by decide))
    (fun _ => pbind_consumes (takeUntil_consumes _)
      (fun _ => pbind_consumes (tag_consumes _)
        (fun _ => pbind_consumes (consumes_of_strict parse_line_strict)
          (fun _ => pbind_consumes (many0_consumes footnoteExtra_consumes)
            (fun _ => ppure_consumes _)))))

theorem decompose_consumes (content : List Char) :
    Consumes (TextBlock.decompose content) := by
  intro s r a h
  unfold TextBlock.decompose at h
  cases hn : allConsuming (many1 inlineItem) content with
  | none =>
    simp only [hn] at h
    exact absurd h (by simp)
  | some x =>
    obtain ⟨r1, items⟩ := x
    simp only [hn] at h
    have h2 := Option.some.inj h
    have hr : s = r := congrArg Prod.fst h2
    exact ⟨[], by simp [hr]⟩

theorem textBlock_strict : Strict TextBlock.parse :=
  pbind_strict_left (takeUntil1_strict _)
    (fun contents => pbind_consumes (consumes_of_strict (many1_strict (tag_consumes _)))
      (fun _ => pbind_consumes (decompose_consumes contents)
        (fun _ => ppure_consumes _)))

theorem newline_strict : Strict Newline.parse :=
  pbind_strict_left lineEnding_strict (fun _ => ppure_consumes _)

theorem intoBlock_strict {α : Type} {p : P α} (f : α → Block) (hp : Strict p) :
    Strict (intoBlock p f) :=
  pbind_strict_left hp (fun _ => ppure_consumes _)

/-- The whole alternation of `Block::parse` strictly consumes. -/
theorem blockStep_strict : Strict blockStep :=
  palt_strict (intoBlock_strict _ heading_strict)
    (palt_strict (intoBlock_strict _ codeBlock_strict)
      (palt_strict (intoBlock_strict _ link_strict)
        (palt_strict (intoBlock_strict _ image_strict)
          (palt_strict (intoBlock_strict _ link_strict)
            (palt_strict (intoBlock_strict _ image_strict)
              (palt_strict (intoBlock_strict _ orderedList_strict)
                (palt_strict (intoBlock_strict _ unorderedList_strict)
                  (palt_strict (intoBlock_strict _ taskList_strict)
                    (palt_strict (intoBlock_strict _ footnote_strict)
                      (palt_strict (intoBlock_strict _ textBlock_strict)
                        (intoBlock_strict _ newline_strict)))))))))))

/-! ## Aggregator-level lemmas -/

theorem parseAux_fuel_irrel :
    ∀ f1 f2 s, s.length < f1 → s.length < f2 →
      Block.parseAux f1 s = Block.parseAux f2 s := by
  intro f1
  induction f1 with
  | zero => intro f2 s h1 h2; omega
  | succ n ih =>
    intro f2 s h1 h2
    cases f2 with
    | zero => omega
    | succ m =>
      simp only [Block.parseAux]
      cases he : eofP s with
      | some x => rfl
      | none =>
        cases hb : blockStep s with
        | none => rfl
        | some x =>
          obtain ⟨r, b⟩ := x
          by_cases hlt : r.length < s.length
          · simp only [if_pos hlt, ih m r (by omega) (by omega)]
          · simp only [if_neg hlt]

theorem parseAux_trace_eq : ∀ fuel s,
    Block.parseAux fuel s =
      Option.map (fun x => (x.1, x.2.map Prod.fst)) (Block.parseTraceAux fuel s) := by
  intro fuel
  induction fuel with
  | zero => intro s; rfl
  | succ n ih =>
    intro s
    simp only [Block.parseAux, Block.parseTraceAux]
    cases he : eofP s with
    | some x => rfl
    | none =>
      cases hb : blockStep s with
      | none => rfl
      | some x =>
        obtain ⟨r, b⟩ := x
        by_cases hlt : r.length < s.length
        · simp only [if_pos hlt, ih r]
          cases ht : Block.parseTraceAux n r with
          | none => rfl
          | some y =>
            obtain ⟨rr, tr⟩ := y
            rfl
        · simp only [if_neg hlt]
          rfl

theorem take_consumed {c r1 s : List Char} (hc : s = c ++ r1) :
    s.take (s.length - r1.length) = c := by
  subst hc
  have hlen : (c ++ r1).length - r1.length = c.length := by simp
  rw [hlen, List.take_left]

theorem traceAux_join : ∀ fuel s r tr,
    Block.parseTraceAux fuel s = some (r, tr) →
    (tr.map Prod.snd).join ++ r = s ∧ r = [] := by
  intro fuel
  induction fuel with
  | zero => intro s r tr h; simp [Block.parseTraceAux] at h
  | succ n ih =>
    intro s r tr h
    simp only [Block.parseTraceAux] at h
    cases he : eofP s with
    | some x =>
      obtain ⟨r0, u⟩ := x
      simp only [he] at h
      have h2 := Option.some.inj h
      have hr : s = r := congrArg Prod.fst h2
      have htr : ([] : List (Block × List Char)) = tr := congrArg Prod.snd h2
      have hs := (eofP_eq he).1
      subst hr
      subst hs
      rw [← htr]
      exact ⟨rfl, rfl⟩
    | none =>
      simp only [he] at h
      cases hb : blockStep s with
      | none =>
        simp only [hb] at h
        exact absurd h (by simp)
      | some x =>
        obtain ⟨r1, b⟩ := x
        simp only [hb] at h
        split at h
        · cases ht : Block.parseTraceAux n r1 with
          | none =>
            simp only [ht] at h
            exact absurd h (by simp)
          | some y =>
            obtain ⟨rr, tr1⟩ := y
            simp only [ht] at h
            have h2 := Option.some.inj h
            have hr : rr = r := congrArg Prod.fst h2
            have htr : (b, s.take (s.length - r1.length)) :: tr1 = tr :=
              congrArg Prod.snd h2
            obtain ⟨hjoin, hrnil⟩ := ih r1 rr tr1 ht
            obtain ⟨c, hc⟩ := (blockStep_strict s r1 b hb).1
            subst hr
            rw [← htr]
            constructor
            · rw [take_consumed hc]
              simp only [List.map_cons, List.join_cons, List.append_assoc]
              rw [hjoin]
              exact hc.symm
            · exact hrnil
        · exact absurd h (by simp)

/-! ## Helper lemmas for the claims -/

/-- A paragraph span holding a backtick that no inline recognizer can consume
makes the inline `all_consuming` fail; hence `TextBlock.parse` fails. -/
theorem textblock_backtick_none (rest : List Char) :
    TextBlock.parse ('a' :: '`' :: 'b' :: '\n' :: '\n' :: rest) = none := by
  obtain ⟨rr, xs, hm⟩ := many1_progress (tag_strict (by decide))
    (show tag ("\n".toList) ('\n' :: '\n' :: rest) = some ('\n' :: rest, "\n".toList) from rfl)
  have h1 : takeUntil1 ("\n\n".toList) ('a' :: '`' :: 'b' :: '\n' :: '\n' :: rest) =
      some ('\n' :: '\n' :: rest, "a`b".toList) := rfl
  have h3 : allConsuming (many1 inlineItem) ("a`b".toList) = none := rfl
  simp only [TextBlock.parse, pbind, h1, hm, TextBlock.decompose, h3]

/-- At the backtick paragraph, every recognizer of the block alternation
fails, whatever follows the blank line. -/
theorem blockStep_backtick_none (rest : List Char) :
    blockStep ('a' :: '`' :: 'b' :: '\n' :: '\n' :: rest) = none := by
  have h1 : Heading.parse ('a' :: '`' :: 'b' :: '\n' :: '\n' :: rest) = none := rfl
  have h2 : CodeBlock.parse ('a' :: '`' :: 'b' :: '\n' :: '\n' :: rest) = none := rfl
  have h3 : Link.parse ('a' :: '`' :: 'b' :: '\n' :: '\n' :: rest) = none := rfl
  have h4 : Image.parse ('a' :: '`' :: 'b' :: '\n' :: '\n' :: rest) = none := rfl
  have h5 : OrderedList.parse ('a' :: '`' :: 'b' :: '\n' :: '\n' :: rest) = none := rfl
  have h6 : UnorderedList.parse ('a' :: '`' :: 'b' :: '\n' :: '\n' :: rest) = none := rfl
  have h7 : TaskList.parse ('a' :: '`' :: 'b' :: '\n' :: '\n' :: rest) = none := rfl
  have h8 : Footnote.parse ('a' :: '`' :: 'b' :: '\n' :: '\n' :: rest) = none := rfl
  have h9 := textblock_backtick_none rest
  have h10 : Newline.parse ('a' :: '`' :: 'b' :: '\n' :: '\n' :: rest) = none := rfl
  simp only [blockStep, palt, intoBlock, pbind, h1, h2, h3, h4, h5, h6, h7, h8, h9, h10]

theorem blockparse_backtick_none (rest : List Char) :
    Block.parse ('a' :: '`' :: 'b' :: '\n' :: '\n' :: rest) = none := by
  have hb := blockStep_backtick_none rest
  have he : eofP ('a' :: '`' :: 'b' :: '\n' :: '\n' :: rest) = none := rfl
  simp only [Block.parse, Block.parseAux, he, hb]

/-- `parse_line` fails on any remaining input holding no `\n` at all. -/
theorem parse_line_none_of_no_newline :
    ∀ s : List Char, '\n' ∉ s → parse_line s = none := by
  intro s
  induction s with
  | nil => intro _; rfl
  | cons c s ih =>
    intro hmem
    have hc : ¬(c = '\n') := fun hq => hmem (by rw [hq]; exact List.mem_cons_self _ _)
    have hs : '\n' ∉ s := fun hq => hmem (List.mem_cons_of_mem _ hq)
    simp only [parse_line, pbind, notLineEnding, if_neg hc]
    by_cases hcr : c = '\r'
    · simp only [if_pos hcr]
      cases s with
      | nil => rfl
      | cons d s2 =>
        have hd : ¬(d = '\n') := fun hq => hs (by rw [hq]; exact List.mem_cons_self _ _)
        simp only [if_neg hd]
    · simp only [if_neg hcr]
      have hpl := ih hs
      simp only [parse_line, pbind] at hpl
      cases hn : notLineEnding s with
      | none => simp only [hn]
      | some x =>
        obtain ⟨r, pre⟩ := x
        simp only [hn] at hpl
        simp only [hn]
        cases hle : lineEnding r with
        | none => simp only [hle]
        | some y =>
          obtain ⟨r2, t⟩ := y
          simp only [hle, ppure] at hpl
          exact absurd hpl (by simp)

/-- Whatever a single-character `take_until` returns, the delimiter does not
occur in the consumed part. -/
theorem takeUntil_single_not_mem (x : Char) :
    ∀ s r pre, takeUntil [x] s = some (r, pre) → x ∉ pre := by
  intro s
  induction s with
  | nil =>
    intro r pre h
    simp [takeUntil, startsWithPat] at h
  | cons c s ih =>
    intro r pre h
    simp only [takeUntil] at h
    split at h
    · have h2 := Option.some.inj h
      have hp : ([] : List Char) = pre := congrArg Prod.snd h2
      rw [← hp]
      simp
    · rename_i hpre
      cases ht : takeUntil [x] s with
      | none => rw [ht] at h; exact absurd h (by simp)
      | some y =>
        obtain ⟨r1, pre1⟩ := y
        simp only [ht] at h
        have h2 := Option.some.inj h
        have hp : c :: pre1 = pre := congrArg Prod.snd h2
        have hxc : ¬(x = c) := by
          intro hq
          exact hpre (by subst hq; simp [startsWithPat])
        have hrec := ih r1 pre1 ht
        rw [← hp]
        intro hin
        rcases List.mem_cons.mp hin with hcase | hcase
        · exact hxc hcase
        · exact hrec hcase

/-- takeWhile/dropWhile on a sharp run followed by a non-sharp head. -/
theorem takeWhile_hash_replicate (n : Nat) (t : List Char)
    (ht : ∀ c, t.head? = some c → ¬((c == '#') = true)) :
    (List.replicate n '#' ++ t).takeWhile (fun c => c == '#') = List.replicate n '#' ∧
    (List.replicate n '#' ++ t).dropWhile (fun c => c == '#') = t := by
  induction n with
  | zero =>
    simp only [List.replicate, List.nil_append]
    cases t with
    | nil => exact ⟨rfl, rfl⟩
    | cons c t2 =>
      have hcb : (c == '#') = false := by
        have := ht c rfl
        revert this
        cases (c == '#') <;> simp
      constructor
      · simp [List.takeWhile_cons, hcb]
      · simp [List.dropWhile_cons, hcb]
  | succ n ih =>
    obtain ⟨ih1, ih2⟩ := ih
    simp only [List.replicate_succ, List.cons_append]
    constructor
    · simp [List.takeWhile_cons, ih1]
    · simp [List.dropWhile_cons, ih2]

/-- `not_line_ending` splits exactly at the first `\n` when the prefix holds
no terminator characters. -/
theorem notLineEnding_append_newline (line rest : List Char)
    (h1 : '\n' ∉ line) (h2 : '\r' ∉ line) :
    notLineEnding (line ++ '\n' :: rest) = some ('\n' :: rest, line) := by
  induction line with
  | nil => simp [notLineEnding]
  | cons c l ih =>
    have hc : ¬(c = '\n') := fun hq => h1 (by rw [hq]; exact List.mem_cons_self _ _)
    have hcr : ¬(c = '\r') := fun hq => h2 (by rw [hq]; exact List.mem_cons_self _ _)
    have h1s : '\n' ∉ l := fun hq => h1 (List.mem_cons_of_mem _ hq)
    have h2s : '\r' ∉ l := fun hq => h2 (List.mem_cons_of_mem _ hq)
    simp only [List.cons_append, notLineEnding, List.append_eq, if_neg hc, if_neg hcr,
      ih h1s h2s]

theorem parse_line_append_newline (line rest : List Char)
    (h1 : '\n' ∉ line) (h2 : '\r' ∉ line) :
    parse_line (line ++ '\n' :: rest) = some (rest, line) := by
  simp only [parse_line, pbind, notLineEnding_append_newline line rest h1 h2]
  simp [lineEnding, ppure]

/-! ## The claims -/

/-- Claim C1 (failing-input evaluation): on `"- [ ] buy milk\n- [x] done\n"`
the block aggregator emits an UnorderedList with raw items `"[ ] buy milk"`
and `"[x] done"` — not a TaskList — because `Block::parse` tries
`UnorderedList` before `TaskList`; `TaskList::parse` alone would accept the
same prefix with the claimed two tasks. -/
theorem c1_unordered_shadows_tasklist :
    Block.parse ("- [ ] buy milk\n- [x] done\n".toList) =
      some ([], [Block.unorderedList ⟨["[ ] buy milk".toList, "[x] done".toList]⟩]) ∧
    TaskList.parse ("- [ ] buy milk\n- [x] done\n".toList) =
      some ([], ⟨[⟨"buy milk".toList, false⟩, ⟨"done".toList, true⟩]⟩) :=
  ⟨rfl, rfl⟩

/-- Claim C2 (failing-input evaluation): on a fence with three content lines,
`CodeBlock::parse` succeeds but `contents` is only the first physical line
(`not_line_ending` truncates the captured span), not the whole span. -/
theorem c2_codeblock_truncates :
    CodeBlock.parse ("```\nalpha\nbeta\ngamma\n```\n".toList) =
      some ("\n".toList, ⟨none, "alpha".toList⟩) ∧
    "alpha".toList ≠ ("alpha\nbeta\ngamma".toList) :=
  ⟨rfl, by decide⟩

/-- Claim C3: a paragraph span `"a`b"` decomposes into a Text item with the
unconsumed remainder `` "`b" ``, the `all_consuming` inline step therefore
fails, and the whole document parse returns failure — no partial Document —
whatever follows the blank-line delimiter. -/
theorem c3_unconsumed_inline_fails_document :
    many1 inlineItem ("a`b".toList) =
      some ("`b".toList, [TextBlockItem.text ⟨"a".toList⟩]) ∧
    allConsuming (many1 inlineItem) ("a`b".toList) = none ∧
    ∀ rest, Block.parse ('a' :: '`' :: 'b' :: '\n' :: '\n' :: rest) = none :=
  ⟨rfl, rfl, blockparse_backtick_none⟩

set_option maxRecDepth 40000 in
/-- Claim C4 counterexample: a run of 256 `#` yields level 0, not 256 — the
`usize → u8` cast truncates mod 256, so "level equals the run length with no
upper bound" fails. -/
theorem c4_heading_level_capped_counterexample :
    Heading.parse (List.replicate 256 '#' ++ (" x\n".toList)) =
      some ([], ⟨0, "x".toList⟩) ∧ (0 : Nat) ≠ 256 :=
  ⟨rfl, by decide⟩

/-- Claim C4 (amended): for a heading line of `n ≥ 1` leading `#` followed by
a terminated line, `Heading::parse` succeeds with level `n % 256` (the u8
truncation of the run length) and the trimmed line text; for `n < 256` —
e.g. a run of 10 — this equals `n`. -/
theorem c4_heading_level_mod256 (n : Nat) (line rest : List Char)
    (hn : 1 ≤ n) (hhead : line.head? ≠ some '#')
    (h1 : '\n' ∉ line) (h2 : '\r' ∉ line) :
    Heading.parse (List.replicate n '#' ++ (line ++ '\n' :: rest)) =
      some (rest, ⟨n % 256, trim line⟩) := by
  have ht : ∀ c, (line ++ '\n' :: rest).head? = some c → ¬((c == '#') = true) := by
    intro c hcin
    cases line with
    | nil =>
      simp only [List.nil_append, List.head?_cons, Option.some.injEq] at hcin
      subst hcin
      decide
    | cons a l =>
      simp only [List.cons_append, List.head?_cons, Option.some.injEq] at hcin
      subst hcin
      intro hq
      have ha : a = '#' := by simpa using hq
      exact hhead (by simp [ha])
  obtain ⟨htw, hdw⟩ := takeWhile_hash_replicate n (line ++ '\n' :: rest) ht
  have hne : (List.replicate n '#').isEmpty = false := by
    cases n with
    | zero => omega
    | succ m => rfl
  have hstep : takeWhile1 (fun c => c == '#')
      (List.replicate n '#' ++ (line ++ '\n' :: rest)) =
      some (line ++ '\n' :: rest, List.replicate n '#') := by
    simp [takeWhile1, htw, hdw, hne]
  simp [Heading.parse, parse_level, pbind, hstep, ppure,
    parse_line_append_newline line rest h1 h2, List.length_replicate]

/-- Claim C4 witness: a run of 10 `#` yields level 10. -/
theorem c4_heading_level_mod256_witness :
    Heading.parse (List.replicate 10 '#' ++ (" Title".toList ++ '\n' :: ([] : List Char))) =
      some ([], ⟨10 % 256, trim (" Title".toList)⟩) :=
  c4_heading_level_mod256 10 (" Title".toList) [] (by decide) (by decide)
    (by decide) (by decide)

/-- Claim C5 counterexample: `Link::parse` succeeds on `"[]()"` with BOTH
spans empty, refuting "both spans non-empty". -/
theorem c5_link_empty_spans_counterexample :
    Link.parse ("[]()".toList) = some ([], { text := [], url := [] }) :=
  rfl

/-- Claim C5 (amended): for every input on which `Link::parse` succeeds, the
text span is the bracket contents up to the first `]` (so it holds no `]`)
and the url span holds no `)`; the spans may be empty. -/
theorem c5_link_span_delimiters (s r : List Char) (l : Link)
    (h : Link.parse s = some (r, l)) : ']' ∉ l.text ∧ ')' ∉ l.url := by
  simp only [Link.parse, pbind] at h
  cases h1 : tag ("[".toList) s with
  | none =>
    simp only [h1] at h
    exact absurd h (by simp)
  | some x1 =>
    obtain ⟨s1, t1⟩ := x1
    simp only [h1] at h
    cases h2 : takeUntil ("]".toList) s1 with
    | none =>
    simp only [h2] at h
    exact absurd h (by simp)
    | some x2 =>
      obtain ⟨s2, text⟩ := x2
      simp only [h2] at h
      cases h3 : tag ("]".toList) s2 with
      | none =>
    simp only [h3] at h
    exact absurd h (by simp)
      | some x3 =>
        obtain ⟨s3, t3⟩ := x3
        simp only [h3] at h
        cases h4 : tag ("(".toList) s3 with
        | none =>
    simp only [h4] at h
    exact absurd h (by simp)
        | some x4 =>
          obtain ⟨s4, t4⟩ := x4
          simp only [h4] at h
          cases h5 : takeUntil (")".toList) s4 with
          | none =>
    simp only [h5] at h
    exact absurd h (by simp)
          | some x5 =>
            obtain ⟨s5, url⟩ := x5
            simp only [h5] at h
            cases h6 : tag (")".toList) s5 with
            | none =>
    simp only [h6] at h
    exact absurd h (by simp)
            | some x6 =>
              obtain ⟨s6, t6⟩ := x6
              simp only [h6, ppure] at h
              have hl : Link.mk text url = l := congrArg Prod.snd (Option.some.inj h)
              constructor
              · rw [← hl]
                exact takeUntil_single_not_mem ']' s1 s2 text h2
              · rw [← hl]
                exact takeUntil_single_not_mem ')' s4 s5 url h5

/-- Claim C5 witness: a successful parse of `"[a](b)"` has no `]` in the text
span and no `)` in the url span. -/
theorem c5_link_span_delimiters_witness :
    (']' ∉ ("a".toList)) ∧ (')' ∉ ("b".toList)) :=
  c5_link_span_delimiters ("[a](b)".toList) [] ⟨"a".toList, "b".toList⟩ rfl

/-- Claim C6: `"[^n]: first\n  second\n"` parses to Footnote{name "n",
text ["first", "second"]} — first line taken from the definition line and
trimmed, the continuation line stored with its two-space prefix stripped —
and a following line without the two-space prefix ends the footnote (it is
left as the remainder). -/
theorem c6_footnote_continuation :
    Footnote.parse ("[^n]: first\n  second\n".toList) =
      some ([], ⟨"n".toList, ["first".toList, "second".toList]⟩) ∧
    Footnote.parse ("[^n]: first\n  second\nthird\n".toList) =
      some ("third\n".toList, ⟨"n".toList, ["first".toList, "second".toList]⟩) :=
  ⟨rfl, rfl⟩

/-- Claim C7: no branch of the block alternation can succeed consuming zero
input (the remainder is strictly shorter), and consequently the fuel
`length + 1` which `Block.parse` hands to the scan loop is enough: any
larger fuel computes the same result, i.e. the loop terminates on every
finite buffer. -/
theorem c7_no_zero_consumption :
    (∀ s r b, blockStep s = some (r, b) → r.length < s.length) ∧
    (∀ fuel s, s.length < fuel → Block.parseAux fuel s = Block.parse s) :=
  ⟨fun s r b h => (blockStep_strict s r b h).2,
   fun fuel s h => parseAux_fuel_irrel fuel (s.length + 1) s h (by omega)⟩

/-- Claim C7 witness: a concrete step consumes (`"#a\n"` to `""`), and extra
fuel does not change the parse of `"\n"`. -/
theorem c7_no_zero_consumption_witness :
    (([] : List Char).length < ("#a\n".toList).length) ∧
    (Block.parseAux 9 ("\n".toList) = Block.parse ("\n".toList)) :=
  ⟨c7_no_zero_consumption.1 ("#a\n".toList) [] (Block.heading ⟨1, "a".toList⟩) rfl,
   c7_no_zero_consumption.2 9 ("\n".toList) (by decide)⟩

/-- Claim C8: whenever `Block::parse` succeeds, the instrumented run records
one consumed span per emitted block, in order, and concatenating those spans
reconstructs the input exactly (and the final remainder is empty): no gaps,
no overlaps, no reordering. -/
theorem c8_total_coverage (s r : List Char) (bs : List Block)
    (h : Block.parse s = some (r, bs)) :
    ∃ tr, Block.parseTrace s = some (r, tr) ∧ tr.map Prod.fst = bs ∧
      (tr.map Prod.snd).join = s ∧ r = [] := by
  have he := parseAux_trace_eq (s.length + 1) s
  unfold Block.parse at h
  rw [h] at he
  cases ht : Block.parseTraceAux (s.length + 1) s with
  | none => rw [ht] at he; simp at he
  | some y =>
    obtain ⟨rr, tr⟩ := y
    rw [ht] at he
    simp only [Option.map] at he
    have h2 := Option.some.inj he
    have hr : r = rr := congrArg Prod.fst h2
    have hbs : bs = tr.map Prod.fst := congrArg Prod.snd h2
    obtain ⟨hjoin, hrnil⟩ := traceAux_join (s.length + 1) s rr tr ht
    refine ⟨tr, ?_, hbs.symm, ?_, by rw [hr, hrnil]⟩
    · unfold Block.parseTrace
      rw [ht, hr]
    · rw [hrnil] at hjoin
      simpa using hjoin

/-- Claim C8 witness: on `"# t\n"` the trace exists, projects to the parsed
blocks, and its spans join back to the input. -/
theorem c8_total_coverage_witness :
    ∃ tr, Block.parseTrace ("# t\n".toList) = some ([], tr) ∧
      tr.map Prod.fst = [Block.heading ⟨1, "t".toList⟩] ∧
      (tr.map Prod.snd).join = "# t\n".toList ∧ ([] : List Char) = [] :=
  c8_total_coverage ("# t\n".toList) [] [Block.heading ⟨1, "t".toList⟩] rfl

/-- Claim C9: `Block::parse` is deterministic — two runs over equal buffers
produce structurally identical results (the embedding is a pure function of
the buffer; the source parser holds no state and consults nothing else). -/
theorem c9_determinism (s1 s2 : List Char) (h : s1 = s2) :
    Block.parse s1 = Block.parse s2 := by rw [h]

/-- Claim C9 witness. -/
theorem c9_determinism_witness :
    ("- a\n".toList = "- a\n".toList) ∧
    Block.parse ("- a\n".toList) = Block.parse ("- a\n".toList) :=
  ⟨rfl, c9_determinism ("- a\n".toList) ("- a\n".toList) rfl⟩

/-- Claim C10: `parse_line` fails whenever no line terminator remains (any
remaining input without `\n` — a bare `\r` is itself an error), so the
document `"# Title"` with no trailing newline is rejected by `Block::parse`
outright. -/
theorem c10_line_terminator_required :
    (∀ s : List Char, '\n' ∉ s → parse_line s = none) ∧
    Block.parse ("# Title".toList) = none :=
  ⟨parse_line_none_of_no_newline, rfl⟩

/-- Claim C10 witness. -/
theorem c10_line_terminator_required_witness :
    ('\n' ∉ ("# Title".toList)) ∧ parse_line ("# Title".toList) = none :=
  ⟨by decide, c10_line_terminator_required.1 ("# Title".toList) (by decide)⟩

end Mdx
